import Mathlib

/-!
Verification development for the catchesstrophy chess move-generation core.

The definitions below are a shallow embedding of the Rust sources:
machine `u64` values are modelled as `Nat` with explicit `% 2^64`
wrapping where the code relies on overflow, boards are records of
bit-planes, and the make/unmake engine is translated function by
function from `src/bitboard/moving.rs`, `src/bitboard/hash.rs`,
`src/bitboard/movegen.rs`, `src/bitboard/attacking.rs`,
`src/bitboard/binary.rs`, `src/bitboard/castling.rs` and
`src/model/bitboard.rs`.
-/

namespace Catchesstrophy

/-- `u64::MAX + 1`, the modulus of 64-bit machine arithmetic. -/
def U64SIZE : Nat := 18446744073709551616

/-- Truncating left shift, the semantics of `<<` on `u64`. -/
def shl64 (a k : Nat) : Nat := (a <<< k) % U64SIZE

/-- Bitwise complement on `u64`. -/
def not64 (a : Nat) : Nat := 18446744073709551615 ^^^ a

/-- `u64::wrapping_sub`. -/
def wsub64 (a b : Nat) : Nat := (a + U64SIZE - b) % U64SIZE

/-- Truncating left shift on `u128`, used by the diagonal mask computations. -/
def shl128 (a k : Nat) : Nat := (a <<< k) % (U64SIZE * U64SIZE)

/-- Fuel-driven floor base-2 logarithm (kernel-reducible replacement for
`u64::leading_zeros` arithmetic). -/
def log2fuel : Nat → Nat → Nat
  | 0, _ => 0
  | f + 1, n => if n ≤ 1 then 0 else log2fuel f (n / 2) + 1

/-- `u64::leading_zeros` for nonzero input: `63 - log2 x`. -/
def u64_leading_zeros (x : Nat) : Nat := 63 - log2fuel 64 x

/-- The square enumeration: an ordinal in `[0, 63]`, `a1 = 0`, …, `h8 = 63`
(`src/model.rs`, `enum Square`). -/
abbrev Square := Fin 64

/-- `Square::from_u8`: infallible conversion truncating to 6 bits. -/
def Square.from_u8 (n : Nat) : Square := ⟨n % 64, Nat.mod_lt _ (by decide)⟩

/-- The lowest set bit of a mask (`mask - (mask & (mask - 1))`). -/
def lowest_bit (m : Nat) : Nat := m - (m &&& (m - 1))

/-- Modelled from the spec: the `biterate` bit-iteration utility of the
missing `src/bitboard/utils.rs` — "for each set bit, produce its square
index, then clear it … a while-loop over `trailing_zeros` and
`mask &= mask − 1`".  Returns the indices of the set bits in increasing
order; the fuel of 64 covers every 64-bit mask. -/
def bitIndicesAux : Nat → Nat → List Nat
  | 0, _ => []
  | f + 1, m =>
    if m = 0 then []
    else log2fuel 64 (lowest_bit m) :: bitIndicesAux f (m &&& (m - 1))

/-- The list of set-bit indices of a 64-bit mask, in increasing order. -/
def bitIndices (m : Nat) : List Nat := bitIndicesAux 64 m

/-- `ChessColor` (`src/model.rs`): White = 0, Black = 1. -/
inductive ChessColor
  | WHITE
  | BLACK
  deriving DecidableEq, Repr

/-- `ChessColor::opp`: the opposing color. -/
def ChessColor.opp : ChessColor → ChessColor
  | .WHITE => .BLACK
  | .BLACK => .WHITE

/-- `ChessEchelon` / `ChessPiece` (`src/model.rs`): the six piece kinds. -/
inductive ChessEchelon
  | PAWN
  | KNIGHT
  | BISHOP
  | ROOK
  | QUEEN
  | KING
  deriving DecidableEq, Repr

abbrev ChessPiece := ChessEchelon

/-- The six echelons in their declaration order (`ChessEchelon::VARIANTS`). -/
def echVariants : List ChessEchelon :=
  [.PAWN, .KNIGHT, .BISHOP, .ROOK, .QUEEN, .KING]

/-- `ChessCommoner` (`src/model.rs`): every echelon except the king. -/
inductive ChessCommoner
  | PAWN
  | KNIGHT
  | BISHOP
  | ROOK
  | QUEEN
  deriving DecidableEq, Repr

/-- The commoners in declaration order (`ChessCommoner::VARIANTS`). -/
def commVariants : List ChessCommoner :=
  [.PAWN, .KNIGHT, .BISHOP, .ROOK, .QUEEN]

/-- `From<ChessCommoner> for ChessPiece`. -/
def ChessCommoner.toEchelon : ChessCommoner → ChessEchelon
  | .PAWN => .PAWN
  | .KNIGHT => .KNIGHT
  | .BISHOP => .BISHOP
  | .ROOK => .ROOK
  | .QUEEN => .QUEEN

/-- `PawnPromotion` (`src/model.rs`): the promotion targets. -/
inductive PawnPromotion
  | KNIGHT
  | BISHOP
  | ROOK
  | QUEEN
  deriving DecidableEq, Repr

/-- `From<PawnPromotion> for ChessPiece`. -/
def PawnPromotion.toEchelon : PawnPromotion → ChessEchelon
  | .KNIGHT => .KNIGHT
  | .BISHOP => .BISHOP
  | .ROOK => .ROOK
  | .QUEEN => .QUEEN

/-- `CastlingDirection` (`src/model.rs`): East = queenside index 0,
West = kingside index 1. -/
inductive CastlingDirection
  | EAST
  | WEST
  deriving DecidableEq, Repr

/-- `SpecialMove` (`src/model.rs`): double push / en-passant, the four
promotions, and the two castling directions. -/
inductive SpecialMove
  | PAWN
  | KNIGHT
  | BISHOP
  | ROOK
  | QUEEN
  | EAST
  | WEST
  deriving DecidableEq, Repr

/-- `ChessPawn::from_special`: succeeds exactly on `Some(SpecialMove::PAWN)`. -/
def pawnFromSpecial : Option SpecialMove → Option Unit
  | some .PAWN => some ()
  | _ => none

/-- `PawnPromotion::from_special`: succeeds on the four promotion variants. -/
def PawnPromotion.from_special : Option SpecialMove → Option PawnPromotion
  | some .KNIGHT => some .KNIGHT
  | some .BISHOP => some .BISHOP
  | some .ROOK => some .ROOK
  | some .QUEEN => some .QUEEN
  | _ => none

/-- `CastlingDirection::from_special`: succeeds on the two castle variants. -/
def CastlingDirection.from_special : Option SpecialMove → Option CastlingDirection
  | some .EAST => some .EAST
  | some .WEST => some .WEST
  | _ => none

/-- `EnPassant` (`src/model.rs`): the square upon which en-passant capture is
possible, and the square of the captured pawn. -/
structure EnPassant where
  square : Square
  capture : Square
  deriving DecidableEq, Repr

/-- `EnPassant::bit_sq`: bit of the target square, or zero. -/
def EnPassant.bit_sq : Option EnPassant → Nat × Option Square
  | some ep => (1 <<< ep.square.val, some ep.square)
  | none => (0, none)

/-- Castling rights, indexed `[color][direction]`
(`Transients.rights : [[bool; 2]; 2]`). -/
abbrev Rights := ChessColor → CastlingDirection → Bool

/-- `Transients` (`src/model.rs`): en-passant state, half-move clock, and
castling rights. The clock is a `u8` in the source; it is modelled as `Nat`. -/
structure Transients where
  en_passant : Option EnPassant
  halfmove_clock : Nat
  rights : Rights

/-- `Transients::startpos`. -/
def Transients.startpos : Transients :=
  { en_passant := none, halfmove_clock := 0, rights := fun _ _ => true }

/-- `ChessMove` (`src/model.rs`): the fat move record. The Rust field `from`
and `to` are Lean keywords and are rendered `from_` / `to_`. -/
structure ChessMove where
  ech : ChessEchelon
  from_ : Square
  to_ : Square
  special : Option SpecialMove
  capture : Option ChessCommoner
  deriving DecidableEq, Repr

/-- `PseudoLegal` wrapper. -/
structure PseudoLegal where
  mv : ChessMove
  deriving DecidableEq, Repr

/-- `LegalMove` wrapper. -/
structure LegalMove where
  mv : ChessMove
  deriving DecidableEq, Repr

/-- `u8::abs_diff` on square ordinals. -/
def abs_diff (a b : Nat) : Nat := if a ≤ b then b - a else a - b

/-- `DefaultZobristDetails` (`src/bitboard/hash.rs`): the random values for the
transient state. The tables are abstract here — the program fills them from a
deterministically seeded PRNG; every theorem below quantifies over them. -/
structure DefaultZobristDetails where
  ep_files : Fin 8 → Nat
  rights : ChessColor → CastlingDirection → Nat
  black_to_move : Nat

/-- `DefaultZobristDetails::hash_en_passant`: looks up
`ep_files[ep.capture.ix() & 0x7]`, or 0 when en passant is impossible. -/
def DefaultZobristDetails.hash_en_passant (d : DefaultZobristDetails) :
    Option EnPassant → Nat
  | some ep => d.ep_files ⟨ep.capture.val % 8, Nat.mod_lt _ (by decide)⟩
  | none => 0

/-- `DefaultZobristDetails::hash_rights`, translated faithfully: the loop XORs
all four table entries and never consults the boolean argument. -/
def DefaultZobristDetails.hash_rights (d : DefaultZobristDetails)
    (rights : Rights) : Nat :=
  let res := 0
  let res := res ^^^ d.rights .WHITE .EAST
  let res := res ^^^ d.rights .WHITE .WEST
  let res := res ^^^ d.rights .BLACK .EAST
  let res := res ^^^ d.rights .BLACK .WEST
  res

/-- `DefaultZobristDetails::black`. -/
def DefaultZobristDetails.black (d : DefaultZobristDetails) : Nat :=
  d.black_to_move

/-- The `ZobristTables` trait (`src/bitboard/hash.rs`), as a dictionary of the
operations the make/unmake engine and the rehash functions consume. -/
structure ZobristTables where
  hash_en_passant : Option EnPassant → Nat
  hash_rights : Rights → Nat
  black : Nat
  hash_move : ChessColor → ChessEchelon → Nat → Nat
  hash_square : ChessColor → ChessEchelon → Square → Nat
  hash_castling : ChessColor → Nat → Nat → Nat
  hash_full_bitboard : (ChessColor → ChessEchelon → Nat) → Nat
  hash_compact : (ChessColor → Nat) → (ChessEchelon → Nat) → Nat

/-- `bitor_sum` over an echelon-indexed array (`src/model/utils.rs`). -/
def bitor_sum_ech (f : ChessEchelon → Nat) : Nat :=
  echVariants.foldl (fun res e => res ||| f e) 0

/-- `bitor_sum` over a color-indexed array. -/
def bitor_sum_col (f : ChessColor → Nat) : Nat :=
  (f .WHITE) ||| (f .BLACK)

/-- `CompactZobristTables` (`src/bitboard/hash.rs`): per-color and per-echelon
square values. -/
structure CompactZobristTables where
  men : ChessEchelon → Square → Nat
  colors : ChessColor → Square → Nat
  details : DefaultZobristDetails

/-- `CompactZobristTables::hash_color_mask`: XOR of the color values over the
set bits of a mask. -/
def CompactZobristTables.hash_color_mask (t : CompactZobristTables)
    (color : ChessColor) (mask : Nat) : Nat :=
  (bitIndices mask).foldl (fun res sq => res ^^^ t.colors color (Square.from_u8 sq)) 0

/-- `CompactZobristTables::hash_man_mask`. -/
def CompactZobristTables.hash_man_mask (t : CompactZobristTables)
    (man : ChessEchelon) (mask : Nat) : Nat :=
  (bitIndices mask).foldl (fun res sq => res ^^^ t.men man (Square.from_u8 sq)) 0

/-- `<CompactZobristTables as ZobristTables>::hash_full_bitboard`, translated
faithfully: the echelon loop reads `masks[WHITE][man] | masks[WHITE][man]`,
never the black masks. -/
def CompactZobristTables.hash_full_bitboard (t : CompactZobristTables)
    (masks : ChessColor → ChessEchelon → Nat) : Nat :=
  let res := 0
  let res := res ^^^ t.hash_color_mask .WHITE (bitor_sum_ech (masks .WHITE))
  let res := res ^^^ t.hash_color_mask .BLACK (bitor_sum_ech (masks .BLACK))
  echVariants.foldl
    (fun res man => res ^^^ t.hash_man_mask man (masks .WHITE man ||| masks .WHITE man))
    res

/-- `<CompactZobristTables as ZobristTables>::hash_compact`. -/
def CompactZobristTables.hash_compact (t : CompactZobristTables)
    (colors : ChessColor → Nat) (men : ChessEchelon → Nat) : Nat :=
  let res := echVariants.foldl (fun res man => res ^^^ t.hash_man_mask man (men man)) 0
  let res := res ^^^ t.hash_color_mask .WHITE (colors .WHITE)
  res ^^^ t.hash_color_mask .BLACK (colors .BLACK)

/-- The `ZobristTables` dictionary of `CompactZobristTables`. -/
def CompactZobristTables.tables (t : CompactZobristTables) : ZobristTables where
  hash_en_passant := t.details.hash_en_passant
  hash_rights := t.details.hash_rights
  black := t.details.black
  hash_move := fun player man bits =>
    t.hash_color_mask player bits ^^^ t.hash_man_mask man bits
  hash_square := fun player man sq =>
    t.men man sq ^^^ t.colors player sq
  hash_castling := fun player king_bits rook_bits =>
    t.hash_man_mask .KING king_bits ^^^ t.hash_man_mask .ROOK rook_bits ^^^
      t.hash_color_mask player (king_bits ||| rook_bits)
  hash_full_bitboard := t.hash_full_bitboard
  hash_compact := t.hash_compact

/-- `FullZobristTables` (`src/bitboard/hash.rs`): one value per
color × echelon × square. -/
structure FullZobristTables where
  masks : ChessColor → ChessEchelon → Square → Nat
  details : DefaultZobristDetails

/-- `FullZobristTables::hash_mask`. -/
def FullZobristTables.hash_mask (t : FullZobristTables) (color : ChessColor)
    (man : ChessEchelon) (mask : Nat) : Nat :=
  (bitIndices mask).foldl (fun res sq => res ^^^ t.masks color man (Square.from_u8 sq)) 0

/-- The `ZobristTables` dictionary of `FullZobristTables`. -/
def FullZobristTables.tables (t : FullZobristTables) : ZobristTables where
  hash_en_passant := t.details.hash_en_passant
  hash_rights := t.details.hash_rights
  black := t.details.black
  hash_move := fun player man bits => t.hash_mask player man bits
  hash_square := fun player man sq => t.masks player man sq
  hash_castling := fun player king_bits rook_bits =>
    t.hash_mask player .KING king_bits ^^^ t.hash_mask player .ROOK rook_bits
  hash_full_bitboard := fun masks =>
    [(ChessColor.WHITE, ()), (ChessColor.BLACK, ())].foldl
      (fun res c =>
        echVariants.foldl (fun res m => res ^^^ t.hash_mask c.1 m (masks c.1 m)) res)
      0
  hash_compact := fun colors men =>
    [(ChessColor.WHITE, ()), (ChessColor.BLACK, ())].foldl
      (fun res c =>
        echVariants.foldl (fun res m => res ^^^ t.hash_mask c.1 m (colors c.1 &&& men m)) res)
      0

/-- The `NoHashes` dummy implementation: every hash is zero. -/
def NoHashes : ZobristTables where
  hash_en_passant := fun _ => 0
  hash_rights := fun _ => 0
  black := 0
  hash_move := fun _ _ _ => 0
  hash_square := fun _ _ _ => 0
  hash_castling := fun _ _ _ => 0
  hash_full_bitboard := fun _ => 0
  hash_compact := fun _ _ => 0

/-- `Castling` (`src/bitboard/castling.rs`): the static castling rule data. -/
structure Castling where
  rook_move : CastlingDirection → Nat
  king_move : CastlingDirection → Nat
  safety : CastlingDirection → Nat
  space : CastlingDirection → Nat
  back_rank : ChessColor → Nat
  rook_start : ChessColor → CastlingDirection → Square
  king_end : ChessColor → CastlingDirection → Square
  king_start : ChessColor → Square
  chess960 : Bool

/-- `CLASSIC_CASTLING` (`src/bitboard/castling.rs`). -/
def CLASSIC_CASTLING : Castling where
  rook_move := fun
    | .EAST => 0xA0000000000000A0
    | .WEST => 0x0900000000000009
  king_move := fun
    | .EAST => 0x5000000000000050
    | .WEST => 0x1400000000000014
  safety := fun
    | .EAST => 0x7000000000000070
    | .WEST => 0x1C0000000000001C
  space := fun
    | .EAST => 0x6000000000000060
    | .WEST => 0x0E0000000000000E
  back_rank := fun
    | .WHITE => 0x00000000000000FF
    | .BLACK => 0xFF00000000000000
  rook_start := fun
    | .WHITE, .EAST => ⟨7, by decide⟩
    | .WHITE, .WEST => ⟨0, by decide⟩
    | .BLACK, .EAST => ⟨63, by decide⟩
    | .BLACK, .WEST => ⟨56, by decide⟩
  king_start := fun
    | .WHITE => ⟨4, by decide⟩
    | .BLACK => ⟨60, by decide⟩
  king_end := fun
    | .WHITE, .EAST => ⟨6, by decide⟩
    | .WHITE, .WEST => ⟨2, by decide⟩
    | .BLACK, .EAST => ⟨62, by decide⟩
    | .BLACK, .WEST => ⟨58, by decide⟩
  chess960 := false

/-- `DefaultMetaBoard` (`src/model/bitboard.rs`): side to move, turn counter,
incremental hash, transients, and a reference to the castling rules. The
`u16` turn counter is modelled as `Nat`. -/
structure DefaultMetaBoard where
  castling : Castling
  hash : Nat
  turn : Nat
  player : ChessColor
  trans : Transients

/-- `DefaultMetaBoard::next_ply`: swap the player, and increment the turn
counter if the swap was black-to-white. -/
def DefaultMetaBoard.next_ply (m : DefaultMetaBoard) : DefaultMetaBoard :=
  let player := m.player.opp
  { m with
    player := player
    turn := if player = ChessColor.WHITE then m.turn + 1 else m.turn }

/-- `DefaultMetaBoard::prev_ply`. -/
def DefaultMetaBoard.prev_ply (m : DefaultMetaBoard) : DefaultMetaBoard :=
  let turn := if m.player = ChessColor.WHITE then m.turn - 1 else m.turn
  { m with turn := turn, player := m.player.opp }

/-- `DefaultMetaBoard::rehash`: side-to-move value (XORed unconditionally in
the source), rights hash, and en-passant hash. -/
def DefaultMetaBoard.rehash (zt : ZobristTables) (m : DefaultMetaBoard) : Nat :=
  zt.black ^^^ zt.hash_rights m.trans.rights ^^^ zt.hash_en_passant m.trans.en_passant

/-- `DefaultMetaBoard::startpos` sans the hash initialisation performed by the
concrete boards. -/
def DefaultMetaBoard.startpos (zt : ZobristTables) : DefaultMetaBoard :=
  let res : DefaultMetaBoard :=
    { castling := CLASSIC_CASTLING
      hash := 0
      player := .WHITE
      turn := 1
      trans := Transients.startpos }
  { res with hash := res.rehash zt }

/-- The `BitBoard`/`MetaBoard` traits (`src/model/bitboard.rs`) bundled as the
operation set the make/unmake engine is generic over. -/
class BitBoard (β : Type) where
  trans : β → Transients
  set_halfmove_clock : β → Nat → β
  set_castling_rights : β → Rights → β
  set_en_passant : β → Option EnPassant → β
  set_transients : β → Transients → β
  curr_hash : β → Nat
  hash : β → Nat → β
  ply : β → ChessColor × Nat
  next_ply : β → β
  prev_ply : β → β
  castling : β → Castling
  xor : β → ChessColor → ChessEchelon → Nat → β

/-- `CompactBitBoard` (`src/model/bitboard.rs`): one plane per echelon plus
one per color. -/
structure CompactBitBoard where
  ech : ChessEchelon → Nat
  colors : ChessColor → Nat
  meta : DefaultMetaBoard

/-- `CompactBitBoard::xor`: updates the echelon plane and the color plane. -/
def CompactBitBoard.bxor (b : CompactBitBoard) (color : ChessColor)
    (e : ChessEchelon) (mask : Nat) : CompactBitBoard :=
  { b with
    ech := fun x => if x = e then b.ech x ^^^ mask else b.ech x
    colors := fun x => if x = color then b.colors x ^^^ mask else b.colors x }

/-- `CompactBitBoard::men`. -/
def CompactBitBoard.men (b : CompactBitBoard) (color : ChessColor)
    (e : ChessEchelon) : Nat :=
  b.ech e &&& b.colors color

/-- `CompactBitBoard::color`. -/
def CompactBitBoard.color (b : CompactBitBoard) (color : ChessColor) : Nat :=
  b.colors color

/-- `CompactBitBoard::total`. -/
def CompactBitBoard.total (b : CompactBitBoard) : Nat :=
  b.colors .WHITE ||| b.colors .BLACK

/-- `CompactBitBoard::comm_at`: the first commoner echelon whose plane holds
the square (the color planes are not consulted, as in the source). -/
def CompactBitBoard.comm_at (b : CompactBitBoard) (sq : Square) :
    Option ChessCommoner :=
  commVariants.findSome? fun c =>
    if b.ech c.toEchelon &&& (1 <<< sq.val) ≠ 0 then some c else none

/-- Modelled from the spec: `side` of the `BitBoard` trait lives in the
missing `src/bitboard/board.rs`; per the spec the board "must expose
`planes(color,kind) → mask`", so `side` packages the six planes of one
color (the signature appears in the `MoveOnly` forwarding impl in
`src/bitboard/moving.rs`). -/
def CompactBitBoard.side (b : CompactBitBoard) (color : ChessColor) :
    ChessEchelon → Nat :=
  fun e => b.men color e

instance : BitBoard CompactBitBoard where
  trans b := b.meta.trans
  set_halfmove_clock b v :=
    { b with meta := { b.meta with trans := { b.meta.trans with halfmove_clock := v } } }
  set_castling_rights b r :=
    { b with meta := { b.meta with trans := { b.meta.trans with rights := r } } }
  set_en_passant b e :=
    { b with meta := { b.meta with trans := { b.meta.trans with en_passant := e } } }
  set_transients b t := { b with meta := { b.meta with trans := t } }
  curr_hash b := b.meta.hash
  hash b d := { b with meta := { b.meta with hash := b.meta.hash ^^^ d } }
  ply b := (b.meta.player, b.meta.turn)
  next_ply b := { b with meta := b.meta.next_ply }
  prev_ply b := { b with meta := b.meta.prev_ply }
  castling b := b.meta.castling
  xor := CompactBitBoard.bxor

/-- `CompactBitBoard::rehash`. -/
def CompactBitBoard.rehash (zt : ZobristTables) (b : CompactBitBoard) : Nat :=
  b.meta.rehash zt ^^^ zt.hash_compact b.colors b.ech

/-- `CompactBitBoard::startpos`. -/
def CompactBitBoard.startpos (zt : ZobristTables) : CompactBitBoard :=
  let res : CompactBitBoard :=
    { ech := fun
        | .PAWN => 0x00FF00000000FF00
        | .KNIGHT => 0x4200000000000042
        | .BISHOP => 0x2400000000000024
        | .ROOK => 0x8100000000000081
        | .QUEEN => 0x0800000000000008
        | .KING => 0x1000000000000010
      colors := fun
        | .WHITE => 0x000000000000FFFF
        | .BLACK => 0xFFFF000000000000
      meta := DefaultMetaBoard.startpos zt }
  { res with meta := { res.meta with hash := res.rehash zt } }

/-- `FullBitBoard` (`src/model/bitboard.rs`): one plane per color × echelon. -/
structure FullBitBoard where
  masks : ChessColor → ChessEchelon → Nat
  meta : DefaultMetaBoard

/-- `FullBitBoard::xor`. -/
def FullBitBoard.bxor (b : FullBitBoard) (color : ChessColor)
    (e : ChessEchelon) (mask : Nat) : FullBitBoard :=
  { b with
    masks := fun c x => if c = color ∧ x = e then b.masks c x ^^^ mask else b.masks c x }

/-- `FullBitBoard::color`. -/
def FullBitBoard.color (b : FullBitBoard) (color : ChessColor) : Nat :=
  bitor_sum_ech (b.masks color)

instance : BitBoard FullBitBoard where
  trans b := b.meta.trans
  set_halfmove_clock b v :=
    { b with meta := { b.meta with trans := { b.meta.trans with halfmove_clock := v } } }
  set_castling_rights b r :=
    { b with meta := { b.meta with trans := { b.meta.trans with rights := r } } }
  set_en_passant b e :=
    { b with meta := { b.meta with trans := { b.meta.trans with en_passant := e } } }
  set_transients b t := { b with meta := { b.meta with trans := t } }
  curr_hash b := b.meta.hash
  hash b d := { b with meta := { b.meta with hash := b.meta.hash ^^^ d } }
  ply b := (b.meta.player, b.meta.turn)
  next_ply b := { b with meta := b.meta.next_ply }
  prev_ply b := { b with meta := b.meta.prev_ply }
  castling b := b.meta.castling
  xor := FullBitBoard.bxor

/-- `u64::swap_bytes`, used to mirror the white start masks for black. -/
def swap_bytes (x : Nat) : Nat :=
  (x / 0x100000000000000) % 256
    ||| ((x / 0x1000000000000) % 256) <<< 8
    ||| ((x / 0x10000000000) % 256) <<< 16
    ||| ((x / 0x100000000) % 256) <<< 24
    ||| ((x / 0x1000000) % 256) <<< 32
    ||| ((x / 0x10000) % 256) <<< 40
    ||| ((x / 0x100) % 256) <<< 48
    ||| (x % 256) <<< 56

/-- `FullBitBoard::rehash`. -/
def FullBitBoard.rehash (zt : ZobristTables) (b : FullBitBoard) : Nat :=
  b.meta.rehash zt ^^^ zt.hash_full_bitboard b.masks

/-- `FullBitBoard::startpos`: the white start masks, byte-swapped for black. -/
def FullBitBoard.startpos (zt : ZobristTables) : FullBitBoard :=
  let white : ChessEchelon → Nat := fun
    | .PAWN => 0xFF00
    | .KNIGHT => 0x42
    | .BISHOP => 0x24
    | .ROOK => 0x81
    | .QUEEN => 0x08
    | .KING => 0x10
  let res : FullBitBoard :=
    { masks := fun
        | .WHITE => white
        | .BLACK => fun e => swap_bytes (white e)
      meta := DefaultMetaBoard.startpos zt }
  { res with meta := { res.meta with hash := res.rehash zt } }

/-- `FullerBitBoard` (`src/model/bitboard.rs`): a `FullBitBoard` plus cached
per-color occupancy totals. -/
structure FullerBitBoard where
  bitboard : FullBitBoard
  total : ChessColor → Nat

/-- `FullerBitBoard::xor`: updates the inner board and the cached total. -/
def FullerBitBoard.bxor (b : FullerBitBoard) (color : ChessColor)
    (e : ChessEchelon) (mask : Nat) : FullerBitBoard :=
  { bitboard := b.bitboard.bxor color e mask
    total := fun c => if c = color then b.total c ^^^ mask else b.total c }

/-- `FullerBitBoard::color`: served from the cached totals. -/
def FullerBitBoard.color (b : FullerBitBoard) (color : ChessColor) : Nat :=
  b.total color

/-- `FullerBitBoard::startpos`, with the cached totals exactly as written in
the source. -/
def FullerBitBoard.startpos (zt : ZobristTables) : FullerBitBoard :=
  { bitboard := FullBitBoard.startpos zt
    total := fun
      | .WHITE => 0x000000000000FF00
      | .BLACK => 0x00FF000000000000 }

section Moving

variable {β : Type} [BitBoard β]

/-- One iteration of the `for dir in [EAST, WEST]` loop of
`rook_rights_loss` (`src/bitboard/moving.rs`). -/
def rook_rights_dir (zt : ZobristTables) (color : ChessColor) (sq : Square)
    (dir : CastlingDirection) (board : β) : β :=
  if sq = (BitBoard.castling board).rook_start color dir then
    let rights := (BitBoard.trans board).rights
    let board := BitBoard.hash board (zt.hash_rights rights)
    let rights : Rights := fun c d => if c = color ∧ d = dir then false else rights c d
    let board := BitBoard.set_castling_rights board rights
    BitBoard.hash board (zt.hash_rights rights)
  else board

/-- `rook_rights_loss` (`src/bitboard/moving.rs`): clears a castling right when
a rook moves from — or is captured on — its starting square. -/
def rook_rights_loss (zt : ZobristTables) (piece : ChessEchelon)
    (color : ChessColor) (sq : Square) (board : β) : β :=
  if piece ≠ ChessEchelon.ROOK then board
  else rook_rights_dir zt color sq .WEST (rook_rights_dir zt color sq .EAST board)

/-- `capturing_move` (`src/bitboard/moving.rs`): removes the captured chessman
at `sq`, resets the half-move clock, and may clear a castling right. -/
def capturing_move (zt : ZobristTables) (mv : ChessMove) (sq : Square)
    (board : β) : β :=
  let opponent := (BitBoard.ply board).1.opp
  match mv.capture with
  | none => board
  | some man =>
    let man := man.toEchelon
    let board := BitBoard.set_halfmove_clock board 0
    let board := BitBoard.xor board opponent man (1 <<< sq.val)
    let board := rook_rights_loss zt man opponent mv.to_ board
    BitBoard.hash board (zt.hash_square opponent man sq)

/-- `simple_move` (`src/bitboard/moving.rs`): the plain piece move. The clock
increment happens before the early return on special moves, exactly as in the
source. -/
def simple_move (zt : ZobristTables) (mv : ChessMove) (board : β) : β :=
  let player := (BitBoard.ply board).1
  let board := BitBoard.set_halfmove_clock board ((BitBoard.trans board).halfmove_clock + 1)
  if mv.special.isSome then board
  else
    let bits := (1 <<< mv.from_.val) ||| (1 <<< mv.to_.val)
    let board := BitBoard.xor board player mv.ech bits
    let board := rook_rights_loss zt mv.ech player mv.from_ board
    let board := capturing_move zt mv mv.to_ board
    BitBoard.hash board (zt.hash_move player mv.ech bits)

/-- `pawn_special` (`src/bitboard/moving.rs`): clears the en-passant state for
every move, resets the clock for pawn moves, performs the double push or
en-passant capture, and records a new en-passant vulnerability after a
two-square push. -/
def pawn_special (zt : ZobristTables) (mv : ChessMove) (board : β) : β :=
  let player := (BitBoard.ply board).1
  let en_passant := (BitBoard.trans board).en_passant
  let board := BitBoard.set_en_passant board none
  let board := if mv.ech = ChessEchelon.PAWN then BitBoard.set_halfmove_clock board 0 else board
  let board := BitBoard.hash board (zt.hash_en_passant en_passant)
  match pawnFromSpecial mv.special with
  | none => board
  | some _ =>
    let bits := (1 <<< mv.from_.val) ||| (1 <<< mv.to_.val)
    let board := BitBoard.xor board player ChessEchelon.PAWN bits
    let board := BitBoard.hash board (zt.hash_move player ChessEchelon.PAWN bits)
    let board :=
      match en_passant with
      | some ep => capturing_move zt mv ep.capture board
      | none => board
    if abs_diff mv.from_.val mv.to_.val = 16 then
      let en_passant := some
        { capture := mv.to_
          square := Square.from_u8 (min mv.from_.val mv.to_.val + 8) }
      let board := BitBoard.set_en_passant board en_passant
      BitBoard.hash board (zt.hash_en_passant en_passant)
    else board

/-- `promotion_move` (`src/bitboard/moving.rs`): the pawn disappears from
`from` and the promotion piece appears on `to`. -/
def promotion_move (zt : ZobristTables) (mv : ChessMove) (board : β) : β :=
  let player := (BitBoard.ply board).1
  match PawnPromotion.from_special mv.special with
  | none => board
  | some prom =>
    let prom := prom.toEchelon
    let board := BitBoard.xor board player ChessEchelon.PAWN (1 <<< mv.from_.val)
    let board := BitBoard.xor board player prom (1 <<< mv.to_.val)
    let board := capturing_move zt mv mv.to_ board
    let board := BitBoard.hash board (zt.hash_square player ChessEchelon.PAWN mv.from_)
    BitBoard.hash board (zt.hash_square player prom mv.to_)

/-- `castling_move` (`src/bitboard/moving.rs`): moves king and rook by the
rule masks on the active back rank, forfeits both rights, and increments the
half-move clock again (the increment of `simple_move` already ran). -/
def castling_move (zt : ZobristTables) (mv : ChessMove) (board : β) : β :=
  let player := (BitBoard.ply board).1
  match CastlingDirection.from_special mv.special with
  | none => board
  | some castle =>
    let back_rank := (BitBoard.castling board).back_rank player
    let king_move := (BitBoard.castling board).king_move castle &&& back_rank
    let rook_move := (BitBoard.castling board).rook_move castle &&& back_rank
    let rights := (BitBoard.trans board).rights
    let board := BitBoard.hash board (zt.hash_rights rights)
    let rights : Rights := fun c d => if c = player then false else rights c d
    let board := BitBoard.hash board (zt.hash_rights rights)
    let board := BitBoard.set_halfmove_clock board ((BitBoard.trans board).halfmove_clock + 1)
    let board := BitBoard.xor board player ChessEchelon.KING king_move
    let board := BitBoard.xor board player ChessEchelon.ROOK rook_move
    let board := BitBoard.set_castling_rights board rights
    BitBoard.hash board (zt.hash_castling player king_move rook_move)

/-- `make_legal_move` (`src/bitboard/moving.rs`): the four phases followed by
the ply advance; returns the pre-image of the transient block. -/
def make_legal_move (zt : ZobristTables) (board : β) (mv : LegalMove) :
    β × Transients :=
  let res := BitBoard.trans board
  let board := simple_move zt mv.mv board
  let board := promotion_move zt mv.mv board
  let board := pawn_special zt mv.mv board
  let board := castling_move zt mv.mv board
  (BitBoard.next_ply board, res)

/-- `unmake_legal_move` (`src/bitboard/moving.rs`): restore the transients,
reverse the ply, re-run the four phases, restore the transients again. -/
def unmake_legal_move (zt : ZobristTables) (board : β) (mv : LegalMove)
    (trans : Transients) : β :=
  let board := BitBoard.set_transients board trans
  let board := BitBoard.prev_ply board
  let board := simple_move zt mv.mv board
  let board := promotion_move zt mv.mv board
  let board := pawn_special zt mv.mv board
  let board := castling_move zt mv.mv board
  BitBoard.set_transients board trans

end Moving

/-- The `MoveOnly` wrapper (`src/bitboard/moving.rs`): forwards `xor`, `trans`,
`ply` and `castling` to the wrapped board and ignores every metadata update. -/
structure MoveOnly where
  board : CompactBitBoard

instance : BitBoard MoveOnly where
  trans b := b.board.meta.trans
  set_halfmove_clock b _ := b
  set_castling_rights b _ := b
  set_en_passant b _ := b
  set_transients b _ := b
  curr_hash _ := 0
  hash b _ := b
  ply b := (b.board.meta.player, b.board.meta.turn)
  next_ply b := b
  prev_ply b := b
  castling b := b.board.meta.castling
  xor b c e m := ⟨b.board.bxor c e m⟩

/-- `clone_make_pseudolegal_move` (`src/bitboard/moving.rs`): apply a move on
a clone through the `MoveOnly` view with `NoHashes`. -/
def clone_make_pseudolegal_move (board : CompactBitBoard) (mv : PseudoLegal) :
    CompactBitBoard :=
  (make_legal_move NoHashes (MoveOnly.mk board) (LegalMove.mk mv.mv)).1.board

/-- `ChessEchelon::ix`: the discriminant-based array index, which also drives
the `p1 >= p2` comparison in `sanity_check`. -/
def ChessEchelon.ix : ChessEchelon → Nat
  | .PAWN => 0
  | .KNIGHT => 1
  | .BISHOP => 2
  | .ROOK => 3
  | .QUEEN => 4
  | .KING => 5

/-- `CompactBitBoard::sanity_check` (`src/model/bitboard.rs`), rendered as the
conjunction of its `assert_eq!` conditions, in source order: echelon planes
pairwise disjoint; `colors[WHITE] | colors[BLACK] == 0` (the disjunction, as
written in the source); the color-masked echelon sums equal to each color
plane; the plane total equal to the union of the sums; and the incremental
hash equal to the recomputed hash. -/
def CompactBitBoard.sanity_check (zt : ZobristTables) (b : CompactBitBoard) : Bool :=
  (echVariants.all fun p1 =>
    echVariants.all fun p2 =>
      if p1.ix ≥ p2.ix then true else b.ech p1 &&& b.ech p2 == 0)
  && (b.colors .WHITE ||| b.colors .BLACK == 0)
  && (let white := echVariants.foldl (fun w p => w ||| (b.colors .WHITE &&& b.ech p)) 0
      let black := echVariants.foldl (fun w p => w ||| (b.colors .BLACK &&& b.ech p)) 0
      let total := echVariants.foldl (fun t p => t ||| b.ech p) 0
      (white == b.colors .WHITE) && (black == b.colors .BLACK)
        && (total == white ||| black))
  && (b.meta.hash == b.rehash zt)

/-- `white_pawn_attack_fill` (`src/bitboard/binary.rs`). -/
def white_pawn_attack_fill (mask : Nat) : Nat :=
  shl64 mask 7 &&& not64 0x8080808080808080 ||| shl64 mask 9 &&& not64 0x0101010101010101

/-- `black_pawn_attack_fill` (`src/bitboard/binary.rs`). -/
def black_pawn_attack_fill (mask : Nat) : Nat :=
  mask >>> 7 &&& not64 0x0101010101010101 ||| mask >>> 9 &&& not64 0x8080808080808080

/-- `white_pawn_advance_fill` (`src/bitboard/binary.rs`). -/
def white_pawn_advance_fill (mask empty : Nat) : Nat :=
  shl64 mask 8 &&& empty ||| shl64 (shl64 (mask &&& 0x000000000000FF00) 8 &&& empty) 8 &&& empty

/-- `black_pawn_advance_fill` (`src/bitboard/binary.rs`). -/
def black_pawn_advance_fill (mask empty : Nat) : Nat :=
  mask >>> 8 &&& empty ||| ((mask &&& 0x00FF000000000000) >>> 8 &&& empty) >>> 8 &&& empty

/-- `king_dumbfill_simdx4` (`src/bitboard/binary.rs`), the four SIMD lanes
written out scalar: shifts `[7, 8, 9, 1]` with their wrap masks. -/
def king_dumbfill_simdx4 (mask : Nat) : Nat :=
  (shl64 mask 7 &&& not64 0x8080808080808080 ||| mask >>> 7 &&& not64 0x0101010101010101)
    ||| (shl64 mask 8 ||| mask >>> 8)
    ||| (shl64 mask 9 &&& not64 0x0101010101010101 ||| mask >>> 9 &&& not64 0x8080808080808080)
    ||| (shl64 mask 1 &&& not64 0x0101010101010101 ||| mask >>> 1 &&& not64 0x8080808080808080)

/-- `knight_dumbfill_simdx4` (`src/bitboard/binary.rs`): shifts
`[6, 15, 17, 10]`, shift-left wraps in order, shift-right wraps reversed. -/
def knight_dumbfill_simdx4 (mask : Nat) : Nat :=
  (shl64 mask 6 &&& not64 0xC0C0C0C0C0C0C0C0 ||| mask >>> 6 &&& not64 0x0303030303030303)
    ||| (shl64 mask 15 &&& not64 0x8080808080808080 ||| mask >>> 15 &&& not64 0x0101010101010101)
    ||| (shl64 mask 17 &&& not64 0x0101010101010101 ||| mask >>> 17 &&& not64 0x8080808080808080)
    ||| (shl64 mask 10 &&& not64 0x0303030303030303 ||| mask >>> 10 &&& not64 0xC0C0C0C0C0C0C0C0)

/-- One lane of `diff_obs` (`src/bitboard/binary.rs`): obstruction difference
with the occupancy split into the below-square and above-square parts. -/
def diff_obs (ray neg_total pos_total : Nat) : Nat :=
  let neg_hit := ray &&& neg_total
  let pos_hit := ray &&& pos_total
  let ms1b := 0x8000000000000000 >>> u64_leading_zeros (neg_hit ||| 1)
  let diff := pos_hit ^^^ wsub64 pos_hit ms1b
  ray &&& diff

/-- `split` (`src/bitboard/binary.rs`): occupancy below and above a square. -/
def split (sq : Square) (mask : Nat) : Nat × Nat :=
  (mask &&& (not64 0 >>> 1) >>> (63 - sq.val), mask &&& shl64 (not64 1) sq.val)

/-- `rank_and_file` (`src/bitboard/binary.rs`). -/
def rank_and_file (sq : Square) : Nat × Nat :=
  (shl64 0xFF (sq.val &&& 0x38), shl64 0x0101010101010101 (sq.val &&& 0x7))

/-- `diagonal` (`src/bitboard/binary.rs`): southwest–northeast diagonal via a
`u128` shift; the inner `sq << 3` is `u8` arithmetic. -/
def diagonal (sq : Square) : Nat :=
  let n := 64 + (sq.val &&& 0x38) - ((sq.val <<< 3) % 256 &&& 0x38)
  shl128 0x8040201008040201 n >>> 64

/-- `antidiagonal` (`src/bitboard/binary.rs`). -/
def antidiagonal (sq : Square) : Nat :=
  let n := 8 + (sq.val &&& 0x38) + ((sq.val <<< 3) % 256 &&& 0x38)
  shl128 0x0102040810204080 n >>> 64

/-- `rook_diff_obs_simdx2` (`src/bitboard/binary.rs`): rank and file lanes. -/
def rook_diff_obs_simdx2 (sq : Square) (total : Nat) : Nat :=
  let np := split sq total
  let rf := rank_and_file sq
  (diff_obs rf.1 np.1 np.2 ||| diff_obs rf.2 np.1 np.2) &&& not64 (1 <<< sq.val)

/-- `bishop_diff_obs_simdx2` (`src/bitboard/binary.rs`). -/
def bishop_diff_obs_simdx2 (sq : Square) (total : Nat) : Nat :=
  let np := split sq total
  (diff_obs (diagonal sq) np.1 np.2 ||| diff_obs (antidiagonal sq) np.1 np.2)
    &&& not64 (1 <<< sq.val)

/-- `queen_diff_obs_simdx4` (`src/bitboard/binary.rs`): all four rays. -/
def queen_diff_obs_simdx4 (sq : Square) (total : Nat) : Nat :=
  let np := split sq total
  let rf := rank_and_file sq
  (diff_obs rf.1 np.1 np.2 ||| diff_obs rf.2 np.1 np.2
      ||| diff_obs (diagonal sq) np.1 np.2 ||| diff_obs (antidiagonal sq) np.1 np.2)
    &&& not64 (1 <<< sq.val)

/-- `PawnsBitBlit` (`src/model/vision.rs`): stores the complement of the
occupancy; the `SHL` const parameter (white vs black) is a field here. -/
structure PawnsBitBlit where
  shl : Bool
  empty : Nat

/-- `Vision::surveil` for `PawnsBitBlit`: the bit-parallel attack fill. -/
def PawnsBitBlit.surveil (p : PawnsBitBlit) (mask : Nat) : Nat :=
  if p.shl then white_pawn_attack_fill mask else black_pawn_attack_fill mask

/-- `Vision::see` default: surveil of the singleton mask. -/
def PawnsBitBlit.see (p : PawnsBitBlit) (sq : Square) : Nat :=
  p.surveil (1 <<< sq.val)

/-- `PawnVision::advance` for `PawnsBitBlit`. -/
def PawnsBitBlit.advance (p : PawnsBitBlit) (mask : Nat) : Nat :=
  if p.shl then white_pawn_advance_fill mask p.empty else black_pawn_advance_fill mask p.empty

/-- `PawnVision::push` default: advance of the singleton mask. -/
def PawnsBitBlit.push (p : PawnsBitBlit) (sq : Square) : Nat :=
  p.advance (1 <<< sq.val)

/-- `PawnVision::hits` default: capture squares among enemies / ep target. -/
def PawnsBitBlit.hits (p : PawnsBitBlit) (sq : Square) (enemy_and_eps : Nat) : Nat :=
  p.see sq &&& enemy_and_eps

/-- `Vision::surveil` default implementation: union of `see` over the set
bits (used by the sliding-piece visions). -/
def surveil_default (see : Square → Nat) (mask : Nat) : Nat :=
  (bitIndices mask).foldl (fun res sq => res ||| see (Square.from_u8 sq)) 0

/-- The `MostlyBits` panopticon (`src/model/vision.rs`): obstruction-difference
sliders, dumb-fill knight/king, bit-blit pawns, over a fixed occupancy. -/
structure MostlyBits where
  total : Nat

/-- `Panopticon::white_pawn` for `MostlyBits` (`PawnsBitBlit::new` stores the
complement of the occupancy). -/
def MostlyBits.white_pawn (x : MostlyBits) : PawnsBitBlit := ⟨true, not64 x.total⟩

/-- `Panopticon::black_pawn` for `MostlyBits`. -/
def MostlyBits.black_pawn (x : MostlyBits) : PawnsBitBlit := ⟨false, not64 x.total⟩

/-- `KnightDumbfill` surveil. -/
def MostlyBits.knight_surveil (_x : MostlyBits) (mask : Nat) : Nat :=
  knight_dumbfill_simdx4 mask

/-- `KingDumbfill` surveil. -/
def MostlyBits.king_surveil (_x : MostlyBits) (mask : Nat) : Nat :=
  king_dumbfill_simdx4 mask

/-- `FastObsDiffBishop` surveil (default `surveil` over `see`). -/
def MostlyBits.bishop_surveil (x : MostlyBits) (mask : Nat) : Nat :=
  surveil_default (fun sq => bishop_diff_obs_simdx2 sq x.total) mask

/-- `FastObsDiffRook` surveil. -/
def MostlyBits.rook_surveil (x : MostlyBits) (mask : Nat) : Nat :=
  surveil_default (fun sq => rook_diff_obs_simdx2 sq x.total) mask

/-- `FastObsDiffQueen` surveil. -/
def MostlyBits.queen_surveil (x : MostlyBits) (mask : Nat) : Nat :=
  surveil_default (fun sq => queen_diff_obs_simdx4 sq x.total) mask

/-- `Attacks` (`src/bitboard/attacking.rs`). -/
structure Attacks where
  attack : Nat
  targeted_king : Nat

/-- `Attacks::check`: the attack mask reaches the targeted king. -/
def Attacks.check (a : Attacks) : Bool :=
  a.attack &&& a.targeted_king != 0

/-- `attacks_from_echarray_pieces` (`src/bitboard/attacking.rs`): the non-pawn
attack accumulator — the masks are combined with XOR, as in the source. -/
def attacks_from_echarray_pieces (pan : MostlyBits)
    (echs : ChessEchelon → Nat) : Nat :=
  pan.knight_surveil (echs .KNIGHT)
    ^^^ pan.bishop_surveil (echs .BISHOP)
    ^^^ pan.rook_surveil (echs .ROOK)
    ^^^ pan.queen_surveil (echs .QUEEN)
    ^^^ pan.king_surveil (echs .KING)

/-- `attacks_from_echarray_black` (`src/bitboard/attacking.rs`). -/
def attacks_from_echarray_black (pan : MostlyBits)
    (echs : ChessEchelon → Nat) : Nat :=
  (pan.black_pawn).surveil (echs .PAWN) ^^^ attacks_from_echarray_pieces pan echs

/-- `attacks_from_echarray_white` (`src/bitboard/attacking.rs`). -/
def attacks_from_echarray_white (pan : MostlyBits)
    (echs : ChessEchelon → Nat) : Nat :=
  (pan.white_pawn).surveil (echs .PAWN) ^^^ attacks_from_echarray_pieces pan echs

/-- `FakeMoveSimpleStrategyGenerator::attacks` (`src/bitboard/attacking.rs`),
translated faithfully: the `BLACK` arm reads `board.side(WHITE)`. -/
def fake_move_attacks (board : CompactBitBoard) (player : ChessColor) : Attacks :=
  let pan : MostlyBits := ⟨board.total⟩
  match player with
  | .WHITE =>
    { attack := attacks_from_echarray_white pan (board.side .WHITE)
      targeted_king := board.men .BLACK .KING }
  | .BLACK =>
    { attack := attacks_from_echarray_black pan (board.side .WHITE)
      targeted_king := board.men .WHITE .KING }

/-- `FakeMoveSimpleStrategyGenerator::attacks_after`
(`src/bitboard/attacking.rs`). -/
def fake_move_attacks_after (board : CompactBitBoard) (color : ChessColor)
    (mv : ChessMove) : Attacks :=
  let new_board := clone_make_pseudolegal_move board (PseudoLegal.mk mv)
  fake_move_attacks new_board color

/-- `LegalMoveBlesser` (`src/bitboard/movegen.rs`): caches the pre-move
attack mask. -/
structure LegalMoveBlesser where
  cached_attack : Nat

/-- `LegalMoveBlesser::new`: caches `attacks(board, side_to_move).attack`. -/
def LegalMoveBlesser.new (board : CompactBitBoard) : LegalMoveBlesser :=
  ⟨(fake_move_attacks board board.meta.player).attack⟩

/-- `LegalMoveBlesser::bless` (`src/bitboard/movegen.rs`): rejects a move when
`attacks_after` reports check, and additionally checks the castling safety
squares against the cached pre-move attack mask. -/
def LegalMoveBlesser.bless (self : LegalMoveBlesser) (board : CompactBitBoard)
    (mv : ChessMove) : Option LegalMove :=
  let player := board.meta.player
  if (fake_move_attacks_after board player mv).check then none
  else
    match CastlingDirection.from_special mv.special with
    | some ix =>
      let castling := board.meta.castling
      let atks : Attacks :=
        { attack := self.cached_attack
          targeted_king := castling.safety ix &&& castling.back_rank player }
      if atks.check then none else some (LegalMove.mk mv)
    | none => some (LegalMove.mk mv)

/-- `MoveBlesser::bless_into` (`src/bitboard/movegen.rs`): push the blessed
move onto the buffer when accepted. -/
def bless_into {M : Type} (bless : ChessMove → Option M) (mv : ChessMove)
    (buffer : List M) : List M :=
  match bless mv with
  | some b => buffer ++ [b]
  | none => buffer

/-- `promotions` (`src/bitboard/movegen.rs`), translated faithfully: the test
is `mv.to < Square::a1 || Square::h7 < mv.to`; `a1` is the least square, so
only destinations above `h7` (rank 8) fan out into the four promotions. -/
def promotions {M : Type} (bless : ChessMove → Option M) (mv : ChessMove)
    (buffer : List M) : List M :=
  if mv.to_ < (⟨0, by decide⟩ : Square) ∨ (⟨55, by decide⟩ : Square) < mv.to_ then
    [SpecialMove.KNIGHT, SpecialMove.BISHOP, SpecialMove.ROOK, SpecialMove.QUEEN].foldl
      (fun buf spc => bless_into bless { mv with special := some spc } buf) buffer
  else bless_into bless mv buffer

/-- `pawn_moves` (`src/bitboard/movegen.rs`): pushes (double pushes tagged
with the pawn special) and captures (en-passant synthesised when the hit is
not an ordinary capture), each expanded through `promotions`. -/
def pawn_moves {M : Type} (board : CompactBitBoard)
    (bless : ChessMove → Option M) (pawns : Nat) (pawn_vision : PawnsBitBlit)
    (buffer : List M) : List M :=
  let eps := EnPassant.bit_sq board.meta.trans.en_passant
  let enemy := board.color board.meta.player.opp ||| eps.1
  (bitIndices pawns).foldl
    (fun buf fromIx =>
      let fromSq := Square.from_u8 fromIx
      let buf :=
        (bitIndices (pawn_vision.push fromSq)).foldl
          (fun buf toIx =>
            let toSq := Square.from_u8 toIx
            let mv : ChessMove :=
              { ech := .PAWN, from_ := fromSq, to_ := toSq, special := none, capture := none }
            let mv :=
              if abs_diff fromSq.val toSq.val = 16 then
                { mv with special := some SpecialMove.PAWN }
              else mv
            promotions bless mv buf)
          buf
      (bitIndices (pawn_vision.hits fromSq enemy)).foldl
        (fun buf toIx =>
          let toSq := Square.from_u8 toIx
          let mv : ChessMove :=
            { ech := .PAWN, from_ := fromSq, to_ := toSq, special := none
              capture := board.comm_at toSq }
          let mv :=
            if mv.capture.isNone then
              { mv with special := some SpecialMove.PAWN, capture := some ChessCommoner.PAWN }
            else mv
          promotions bless mv buf)
        buf)
    buffer

/-! ## Make/unmake round-trip machinery (claim C1)

The phase functions never read the bit-planes or the hash: they only XOR
into them.  The lemmas below make this precise by pushing a `setPH`
plane/hash override outward through every phase, which yields the
make/unmake involution.  -/

attribute [ext] CompactBitBoard DefaultMetaBoard Transients

@[simp] lemma cbb_trans (b : CompactBitBoard) : BitBoard.trans b = b.meta.trans := rfl
@[simp] lemma cbb_ply (b : CompactBitBoard) : BitBoard.ply b = (b.meta.player, b.meta.turn) := rfl
@[simp] lemma cbb_castling (b : CompactBitBoard) : BitBoard.castling b = b.meta.castling := rfl

def setPH (b : CompactBitBoard) (E : ChessEchelon → Nat) (C : ChessColor → Nat)
    (h : Nat) : CompactBitBoard :=
  { ech := E, colors := C, meta := { b.meta with hash := h } }

@[simp] lemma setPH_trans (b E C h) : (setPH b E C h).meta.trans = b.meta.trans := rfl
@[simp] lemma setPH_player (b E C h) : (setPH b E C h).meta.player = b.meta.player := rfl
@[simp] lemma setPH_turn (b E C h) : (setPH b E C h).meta.turn = b.meta.turn := rfl
@[simp] lemma setPH_castling (b E C h) : (setPH b E C h).meta.castling = b.meta.castling := rfl
@[simp] lemma setPH_hash (b E C h) : (setPH b E C h).meta.hash = h := rfl
@[simp] lemma setPH_ech (b E C h) : (setPH b E C h).ech = E := rfl
@[simp] lemma setPH_colors (b E C h) : (setPH b E C h).colors = C := rfl

lemma setPH_self (b : CompactBitBoard) : setPH b b.ech b.colors b.meta.hash = b := rfl

-- commuting lemmas: push setPH out through each primitive
@[simp] lemma setclock_setPH (b E C h v) :
    BitBoard.set_halfmove_clock (setPH b E C h) v =
      setPH (BitBoard.set_halfmove_clock b v) E C h := rfl
@[simp] lemma setrights_setPH (b E C h r) :
    BitBoard.set_castling_rights (setPH b E C h) r =
      setPH (BitBoard.set_castling_rights b r) E C h := rfl
@[simp] lemma setep_setPH (b E C h e) :
    BitBoard.set_en_passant (setPH b E C h) e =
      setPH (BitBoard.set_en_passant b e) E C h := rfl
@[simp] lemma settrans_setPH (b E C h t) :
    BitBoard.set_transients (setPH b E C h) t =
      setPH (BitBoard.set_transients b t) E C h := rfl
@[simp] lemma hash_setPH (b E C h d) :
    BitBoard.hash (setPH b E C h) d = setPH (BitBoard.hash b d) E C (h ^^^ d) := rfl
@[simp] lemma xor_setPH (b E C h c e m) :
    BitBoard.xor (setPH b E C h) c e m =
      setPH (BitBoard.xor b c e m)
        (fun x => if x = e then E x ^^^ m else E x)
        (fun x => if x = c then C x ^^^ m else C x) h := rfl

lemma xor_cancel_mid (a b c : Nat) : a ^^^ b ^^^ (b ^^^ c) = a ^^^ c := by
  rw [← Nat.xor_assoc, Nat.xor_assoc a b b, Nat.xor_self, Nat.xor_zero]

lemma xor_cancel_left (a b : Nat) : a ^^^ (a ^^^ b) = b := by
  rw [← Nat.xor_assoc, Nat.xor_self, Nat.zero_xor]

lemma xor_left_comm (a b c : Nat) : a ^^^ (b ^^^ c) = b ^^^ (a ^^^ c) := by
  rw [← Nat.xor_assoc, Nat.xor_comm a b, Nat.xor_assoc]

-- projection lemmas for primitives on the meta fields
@[simp] lemma hash_hash (b : CompactBitBoard) (d) : (BitBoard.hash b d).meta.hash = b.meta.hash ^^^ d := rfl
@[simp] lemma hash_ech (b : CompactBitBoard) (d) : (BitBoard.hash b d).ech = b.ech := rfl
@[simp] lemma hash_colors (b : CompactBitBoard) (d) : (BitBoard.hash b d).colors = b.colors := rfl
@[simp] lemma hash_player (b : CompactBitBoard) (d) : (BitBoard.hash b d).meta.player = b.meta.player := rfl
@[simp] lemma hash_turn (b : CompactBitBoard) (d) : (BitBoard.hash b d).meta.turn = b.meta.turn := rfl
@[simp] lemma hash_castling2 (b : CompactBitBoard) (d) : (BitBoard.hash b d).meta.castling = b.meta.castling := rfl
@[simp] lemma hash_trans (b : CompactBitBoard) (d) : (BitBoard.hash b d).meta.trans = b.meta.trans := rfl
@[simp] lemma setr_hash (b : CompactBitBoard) (r) : (BitBoard.set_castling_rights b r).meta.hash = b.meta.hash := rfl
@[simp] lemma setr_ech (b : CompactBitBoard) (r) : (BitBoard.set_castling_rights b r).ech = b.ech := rfl
@[simp] lemma setr_colors (b : CompactBitBoard) (r) : (BitBoard.set_castling_rights b r).colors = b.colors := rfl
@[simp] lemma setr_player (b : CompactBitBoard) (r) : (BitBoard.set_castling_rights b r).meta.player = b.meta.player := rfl
@[simp] lemma setr_turn (b : CompactBitBoard) (r) : (BitBoard.set_castling_rights b r).meta.turn = b.meta.turn := rfl
@[simp] lemma setr_castling (b : CompactBitBoard) (r) : (BitBoard.set_castling_rights b r).meta.castling = b.meta.castling := rfl
@[simp] lemma setc_hash (b : CompactBitBoard) (v) : (BitBoard.set_halfmove_clock b v).meta.hash = b.meta.hash := rfl
@[simp] lemma setc_ech (b : CompactBitBoard) (v) : (BitBoard.set_halfmove_clock b v).ech = b.ech := rfl
@[simp] lemma setc_colors (b : CompactBitBoard) (v) : (BitBoard.set_halfmove_clock b v).colors = b.colors := rfl
@[simp] lemma setc_player (b : CompactBitBoard) (v) : (BitBoard.set_halfmove_clock b v).meta.player = b.meta.player := rfl
@[simp] lemma setc_turn (b : CompactBitBoard) (v) : (BitBoard.set_halfmove_clock b v).meta.turn = b.meta.turn := rfl
@[simp] lemma setc_castling (b : CompactBitBoard) (v) : (BitBoard.set_halfmove_clock b v).meta.castling = b.meta.castling := rfl
@[simp] lemma setep_hash (b : CompactBitBoard) (e) : (BitBoard.set_en_passant b e).meta.hash = b.meta.hash := rfl
@[simp] lemma setep_ech (b : CompactBitBoard) (e) : (BitBoard.set_en_passant b e).ech = b.ech := rfl
@[simp] lemma setep_colors (b : CompactBitBoard) (e) : (BitBoard.set_en_passant b e).colors = b.colors := rfl
@[simp] lemma setep_player (b : CompactBitBoard) (e) : (BitBoard.set_en_passant b e).meta.player = b.meta.player := rfl
@[simp] lemma setep_turn (b : CompactBitBoard) (e) : (BitBoard.set_en_passant b e).meta.turn = b.meta.turn := rfl
@[simp] lemma setep_castling (b : CompactBitBoard) (e) : (BitBoard.set_en_passant b e).meta.castling = b.meta.castling := rfl
@[simp] lemma settr_ech (b : CompactBitBoard) (t) : (BitBoard.set_transients b t).ech = b.ech := rfl
@[simp] lemma settr_colors (b : CompactBitBoard) (t) : (BitBoard.set_transients b t).colors = b.colors := rfl
@[simp] lemma settr_hash (b : CompactBitBoard) (t) : (BitBoard.set_transients b t).meta.hash = b.meta.hash := rfl
@[simp] lemma settr_player (b : CompactBitBoard) (t) : (BitBoard.set_transients b t).meta.player = b.meta.player := rfl
@[simp] lemma settr_turn (b : CompactBitBoard) (t) : (BitBoard.set_transients b t).meta.turn = b.meta.turn := rfl
@[simp] lemma settr_castling (b : CompactBitBoard) (t) : (BitBoard.set_transients b t).meta.castling = b.meta.castling := rfl
@[simp] lemma settr_trans (b : CompactBitBoard) (t) : (BitBoard.set_transients b t).meta.trans = t := rfl
@[simp] lemma bxor_hash (b : CompactBitBoard) (c e m) : (BitBoard.xor b c e m).meta.hash = b.meta.hash := rfl
@[simp] lemma bxor_ech (b : CompactBitBoard) (c e m x) :
    (BitBoard.xor b c e m).ech x = if x = e then b.ech x ^^^ m else b.ech x := rfl
@[simp] lemma bxor_colors (b : CompactBitBoard) (c e m x) :
    (BitBoard.xor b c e m).colors x = if x = c then b.colors x ^^^ m else b.colors x := rfl
@[simp] lemma bxor_player (b : CompactBitBoard) (c e m) : (BitBoard.xor b c e m).meta.player = b.meta.player := rfl
@[simp] lemma bxor_turn (b : CompactBitBoard) (c e m) : (BitBoard.xor b c e m).meta.turn = b.meta.turn := rfl
@[simp] lemma bxor_castling (b : CompactBitBoard) (c e m) : (BitBoard.xor b c e m).meta.castling = b.meta.castling := rfl
@[simp] lemma bxor_trans (b : CompactBitBoard) (c e m) : (BitBoard.xor b c e m).meta.trans = b.meta.trans := rfl

-- per-phase setPH lemmas
@[simp] lemma rrd_setPH (zt color sq dir) (b : CompactBitBoard) (E C h) :
    rook_rights_dir zt color sq dir (setPH b E C h) =
      setPH (rook_rights_dir zt color sq dir b) E C
        (h ^^^ b.meta.hash ^^^ (rook_rights_dir zt color sq dir b).meta.hash) := by
  unfold rook_rights_dir
  simp only [cbb_castling, cbb_trans, setPH_castling, setPH_trans]
  by_cases hc : sq = b.meta.castling.rook_start color dir
  · simp only [if_pos hc, hash_setPH, setrights_setPH, hash_hash, setr_hash]
    ext <;> simp [Nat.xor_assoc, Nat.xor_comm, xor_left_comm, xor_cancel_left]
  · simp only [if_neg hc]
    ext <;> simp [Nat.xor_assoc, Nat.xor_comm, xor_left_comm, xor_cancel_left]

lemma rrd_ech (zt color sq dir) (b : CompactBitBoard) : (rook_rights_dir zt color sq dir b).ech = b.ech := by
  unfold rook_rights_dir; split <;> rfl
lemma rrd_colors (zt color sq dir) (b : CompactBitBoard) : (rook_rights_dir zt color sq dir b).colors = b.colors := by
  unfold rook_rights_dir; split <;> rfl
lemma rrd_player (zt color sq dir) (b : CompactBitBoard) : (rook_rights_dir zt color sq dir b).meta.player = b.meta.player := by
  unfold rook_rights_dir; split <;> rfl
lemma rrd_turn (zt color sq dir) (b : CompactBitBoard) : (rook_rights_dir zt color sq dir b).meta.turn = b.meta.turn := by
  unfold rook_rights_dir; split <;> rfl
lemma rrd_castling (zt color sq dir) (b : CompactBitBoard) : (rook_rights_dir zt color sq dir b).meta.castling = b.meta.castling := by
  unfold rook_rights_dir; split <;> rfl

@[simp] lemma rrl_setPH (zt piece color sq) (b : CompactBitBoard) (E C h) :
    rook_rights_loss zt piece color sq (setPH b E C h) =
      setPH (rook_rights_loss zt piece color sq b) E C
        (h ^^^ b.meta.hash ^^^ (rook_rights_loss zt piece color sq b).meta.hash) := by
  unfold rook_rights_loss
  by_cases hp : piece ≠ ChessEchelon.ROOK
  · rw [if_pos hp, if_pos hp]
    ext <;> simp [Nat.xor_assoc, Nat.xor_comm, xor_left_comm, xor_cancel_left]
  · rw [if_neg hp, if_neg hp]
    simp only [rrd_setPH]
    ext <;> simp [Nat.xor_assoc, Nat.xor_comm, xor_left_comm, xor_cancel_left, rrd_ech, rrd_colors]

lemma rrl_ech (zt piece color sq) (b : CompactBitBoard) : (rook_rights_loss zt piece color sq b).ech = b.ech := by
  unfold rook_rights_loss; split
  · rfl
  · simp [rrd_ech]
lemma rrl_colors (zt piece color sq) (b : CompactBitBoard) : (rook_rights_loss zt piece color sq b).colors = b.colors := by
  unfold rook_rights_loss; split
  · rfl
  · simp [rrd_colors]
lemma rrl_player (zt piece color sq) (b : CompactBitBoard) : (rook_rights_loss zt piece color sq b).meta.player = b.meta.player := by
  unfold rook_rights_loss; split
  · rfl
  · simp [rrd_player]
lemma rrl_turn (zt piece color sq) (b : CompactBitBoard) : (rook_rights_loss zt piece color sq b).meta.turn = b.meta.turn := by
  unfold rook_rights_loss; split
  · rfl
  · simp [rrd_turn]
lemma rrl_castling (zt piece color sq) (b : CompactBitBoard) : (rook_rights_loss zt piece color sq b).meta.castling = b.meta.castling := by
  unfold rook_rights_loss; split
  · rfl
  · simp [rrd_castling]

@[simp] lemma capturing_setPH (zt mv sq) (b : CompactBitBoard) (E C h) :
    capturing_move zt mv sq (setPH b E C h) =
      setPH (capturing_move zt mv sq b)
        (fun x => E x ^^^ b.ech x ^^^ (capturing_move zt mv sq b).ech x)
        (fun x => C x ^^^ b.colors x ^^^ (capturing_move zt mv sq b).colors x)
        (h ^^^ b.meta.hash ^^^ (capturing_move zt mv sq b).meta.hash) := by
  unfold capturing_move
  cases hcap : mv.capture with
  | none =>
    ext <;> simp [Nat.xor_assoc, Nat.xor_comm, xor_left_comm, xor_cancel_left]
  | some man =>
    simp only [cbb_ply, setPH_player, setclock_setPH, xor_setPH, rrl_setPH, hash_setPH,
      hash_hash, rrl_ech, rrl_colors, hash_ech, hash_colors, setr_hash, setc_hash, bxor_hash,
      bxor_ech, bxor_colors, setc_ech, setc_colors]
    ext x <;>
      simp [Nat.xor_assoc, Nat.xor_comm, xor_left_comm, xor_cancel_left] <;>
      split_ifs <;>
      simp_all [Nat.xor_assoc, Nat.xor_comm, xor_left_comm, xor_cancel_left]


lemma capturing_player (zt mv sq) (b : CompactBitBoard) :
    (capturing_move zt mv sq b).meta.player = b.meta.player := by
  unfold capturing_move
  cases mv.capture
  · rfl
  · simp [rrl_player]

lemma capturing_turn (zt mv sq) (b : CompactBitBoard) :
    (capturing_move zt mv sq b).meta.turn = b.meta.turn := by
  unfold capturing_move
  cases mv.capture
  · rfl
  · simp [rrl_turn]

lemma capturing_castling (zt mv sq) (b : CompactBitBoard) :
    (capturing_move zt mv sq b).meta.castling = b.meta.castling := by
  unfold capturing_move
  cases mv.capture
  · rfl
  · simp [rrl_castling]

lemma simple_setPH (zt mv) (b : CompactBitBoard) (E C h) :
    simple_move zt mv (setPH b E C h) =
      setPH (simple_move zt mv b)
        (fun x => E x ^^^ b.ech x ^^^ (simple_move zt mv b).ech x)
        (fun x => C x ^^^ b.colors x ^^^ (simple_move zt mv b).colors x)
        (h ^^^ b.meta.hash ^^^ (simple_move zt mv b).meta.hash) := by
  unfold simple_move
  simp only [cbb_ply, cbb_trans, setPH_player, setPH_trans, setclock_setPH]
  by_cases hs : mv.special.isSome
  · simp only [if_pos hs]
    ext <;> simp [Nat.xor_assoc, Nat.xor_comm, xor_left_comm, xor_cancel_left]
  · simp only [if_neg hs, xor_setPH, rrl_setPH, capturing_setPH, hash_setPH]
    ext x <;>
      simp [Nat.xor_assoc, Nat.xor_comm, xor_left_comm, xor_cancel_left,
        rrl_ech, rrl_colors] <;>
      split_ifs <;>
      simp_all [Nat.xor_assoc, Nat.xor_comm, xor_left_comm, xor_cancel_left]

lemma simple_player (zt mv) (b : CompactBitBoard) :
    (simple_move zt mv b).meta.player = b.meta.player := by
  unfold simple_move
  split
  · rfl
  · simp [capturing_player, rrl_player]

lemma simple_turn (zt mv) (b : CompactBitBoard) :
    (simple_move zt mv b).meta.turn = b.meta.turn := by
  unfold simple_move
  split
  · rfl
  · simp [capturing_turn, rrl_turn]

lemma simple_castling (zt mv) (b : CompactBitBoard) :
    (simple_move zt mv b).meta.castling = b.meta.castling := by
  unfold simple_move
  split
  · rfl
  · simp [capturing_castling, rrl_castling]

lemma promotion_setPH (zt mv) (b : CompactBitBoard) (E C h) :
    promotion_move zt mv (setPH b E C h) =
      setPH (promotion_move zt mv b)
        (fun x => E x ^^^ b.ech x ^^^ (promotion_move zt mv b).ech x)
        (fun x => C x ^^^ b.colors x ^^^ (promotion_move zt mv b).colors x)
        (h ^^^ b.meta.hash ^^^ (promotion_move zt mv b).meta.hash) := by
  unfold promotion_move
  cases hpp : PawnPromotion.from_special mv.special with
  | none =>
    ext <;> simp [Nat.xor_assoc, Nat.xor_comm, xor_left_comm, xor_cancel_left]
  | some prom =>
    simp only [cbb_ply, setPH_player, xor_setPH, capturing_setPH, hash_setPH,
      hash_hash, hash_ech, hash_colors, bxor_ech, bxor_colors, bxor_hash]
    ext x <;>
      simp [Nat.xor_assoc, Nat.xor_comm, xor_left_comm, xor_cancel_left] <;>
      split_ifs <;>
      simp_all [Nat.xor_assoc, Nat.xor_comm, xor_left_comm, xor_cancel_left]

lemma promotion_player (zt mv) (b : CompactBitBoard) :
    (promotion_move zt mv b).meta.player = b.meta.player := by
  unfold promotion_move
  cases PawnPromotion.from_special mv.special
  · rfl
  · simp [capturing_player]

lemma promotion_turn (zt mv) (b : CompactBitBoard) :
    (promotion_move zt mv b).meta.turn = b.meta.turn := by
  unfold promotion_move
  cases PawnPromotion.from_special mv.special
  · rfl
  · simp [capturing_turn]

lemma promotion_castling (zt mv) (b : CompactBitBoard) :
    (promotion_move zt mv b).meta.castling = b.meta.castling := by
  unfold promotion_move
  cases PawnPromotion.from_special mv.special
  · rfl
  · simp [capturing_castling]

set_option maxHeartbeats 2000000 in
lemma pawn_special_setPH (zt mv) (b : CompactBitBoard) (E C h) :
    pawn_special zt mv (setPH b E C h) =
      setPH (pawn_special zt mv b)
        (fun x => E x ^^^ b.ech x ^^^ (pawn_special zt mv b).ech x)
        (fun x => C x ^^^ b.colors x ^^^ (pawn_special zt mv b).colors x)
        (h ^^^ b.meta.hash ^^^ (pawn_special zt mv b).meta.hash) := by
  unfold pawn_special
  simp only [cbb_ply, cbb_trans, setPH_player, setPH_trans, setep_setPH, setclock_setPH,
    hash_setPH]
  cases hps : pawnFromSpecial mv.special with
  | none =>
    split_ifs <;> ext <;> simp [Nat.xor_assoc, Nat.xor_comm, xor_left_comm, xor_cancel_left]
  | some u =>
    simp only [xor_setPH, hash_setPH]
    cases hep : b.meta.trans.en_passant with
    | none =>
      split_ifs <;>
        ext x <;>
        simp [Nat.xor_assoc, Nat.xor_comm, xor_left_comm, xor_cancel_left] <;>
        split_ifs <;>
        simp_all [Nat.xor_assoc, Nat.xor_comm, xor_left_comm, xor_cancel_left]
    | some ep =>
      by_cases hd : abs_diff mv.from_.val mv.to_.val = 16
      · by_cases hech : mv.ech = ChessEchelon.PAWN <;>
          · simp only [if_pos hd, hech, if_true, if_false, ite_true, ite_false,
              if_pos, if_neg, not_false_iff]
            simp
            ext x <;>
              simp [Nat.xor_assoc, Nat.xor_comm, xor_left_comm, xor_cancel_left] <;>
              (try split_ifs <;>
                simp_all [Nat.xor_assoc, Nat.xor_comm, xor_left_comm, xor_cancel_left])
      · by_cases hech : mv.ech = ChessEchelon.PAWN <;>
          · simp only [if_neg hd, hech, if_true, if_false, ite_true, ite_false,
              if_pos, if_neg, not_false_iff]
            simp
            ext x <;>
              simp [Nat.xor_assoc, Nat.xor_comm, xor_left_comm, xor_cancel_left] <;>
              (try split_ifs <;>
                simp_all [Nat.xor_assoc, Nat.xor_comm, xor_left_comm, xor_cancel_left])

lemma pawn_special_player (zt mv) (b : CompactBitBoard) :
    (pawn_special zt mv b).meta.player = b.meta.player := by
  unfold pawn_special
  cases pawnFromSpecial mv.special
  · split_ifs <;> rfl
  · cases b.meta.trans.en_passant <;> split_ifs <;>
      simp [capturing_player]

lemma pawn_special_turn (zt mv) (b : CompactBitBoard) :
    (pawn_special zt mv b).meta.turn = b.meta.turn := by
  unfold pawn_special
  cases pawnFromSpecial mv.special
  · split_ifs <;> rfl
  · cases b.meta.trans.en_passant <;> split_ifs <;>
      simp [capturing_turn]

lemma pawn_special_castling (zt mv) (b : CompactBitBoard) :
    (pawn_special zt mv b).meta.castling = b.meta.castling := by
  unfold pawn_special
  cases pawnFromSpecial mv.special
  · split_ifs <;> rfl
  · cases b.meta.trans.en_passant <;> split_ifs <;>
      simp [capturing_castling]

lemma castling_setPH (zt mv) (b : CompactBitBoard) (E C h) :
    castling_move zt mv (setPH b E C h) =
      setPH (castling_move zt mv b)
        (fun x => E x ^^^ b.ech x ^^^ (castling_move zt mv b).ech x)
        (fun x => C x ^^^ b.colors x ^^^ (castling_move zt mv b).colors x)
        (h ^^^ b.meta.hash ^^^ (castling_move zt mv b).meta.hash) := by
  unfold castling_move
  cases hcd : CastlingDirection.from_special mv.special with
  | none =>
    ext <;> simp [Nat.xor_assoc, Nat.xor_comm, xor_left_comm, xor_cancel_left]
  | some castle =>
    simp only [cbb_ply, cbb_trans, cbb_castling, setPH_player, setPH_trans, setPH_castling,
      hash_setPH, setclock_setPH, xor_setPH, setrights_setPH,
      hash_hash, setc_hash, setr_hash, bxor_hash, hash_ech, hash_colors,
      bxor_ech, bxor_colors, setc_ech, setc_colors, setr_ech, setr_colors,
      hash_trans, setc_turn, hash_player, hash_turn]
    ext x <;>
      simp [Nat.xor_assoc, Nat.xor_comm, xor_left_comm, xor_cancel_left] <;>
      split_ifs <;>
      simp_all [Nat.xor_assoc, Nat.xor_comm, xor_left_comm, xor_cancel_left]

lemma castling_player (zt mv) (b : CompactBitBoard) :
    (castling_move zt mv b).meta.player = b.meta.player := by
  unfold castling_move
  cases CastlingDirection.from_special mv.special <;> rfl

lemma castling_turn (zt mv) (b : CompactBitBoard) :
    (castling_move zt mv b).meta.turn = b.meta.turn := by
  unfold castling_move
  cases CastlingDirection.from_special mv.special <;> rfl

lemma castling_castling (zt mv) (b : CompactBitBoard) :
    (castling_move zt mv b).meta.castling = b.meta.castling := by
  unfold castling_move
  cases CastlingDirection.from_special mv.special <;> rfl


lemma prev_next_trans (m : DefaultMetaBoard) (t : Transients) :
    DefaultMetaBoard.prev_ply { m.next_ply with trans := t } = { m with trans := t } := by
  cases hpl : m.player <;>
    simp [DefaultMetaBoard.next_ply, DefaultMetaBoard.prev_ply, ChessColor.opp, hpl]

lemma st_np_pp (X : CompactBitBoard) (t : Transients) :
    BitBoard.prev_ply (BitBoard.set_transients (BitBoard.next_ply X) t) =
      { X with meta := { X.meta with trans := t } } := by
  show { X with meta := DefaultMetaBoard.prev_ply { X.meta.next_ply with trans := t } } = _
  rw [prev_next_trans]

lemma unmake_assemble (zt : ZobristTables) (mv : ChessMove) (b P : CompactBitBoard)
    (hp : P.meta.player = b.meta.player) (ht : P.meta.turn = b.meta.turn)
    (hc : P.meta.castling = b.meta.castling)
    (hP : castling_move zt mv (pawn_special zt mv (promotion_move zt mv
      (simple_move zt mv b))) = P) :
    BitBoard.set_transients
      (castling_move zt mv (pawn_special zt mv (promotion_move zt mv (simple_move zt mv
        ({ P with meta := { P.meta with trans := b.meta.trans } } : CompactBitBoard)))))
      b.meta.trans = b := by
  have hrec : ({ P with meta := { P.meta with trans := b.meta.trans } } : CompactBitBoard)
      = setPH b P.ech P.colors P.meta.hash := by
    ext <;> simp [setPH, hp, ht, hc]
  rw [hrec]
  simp only [simple_setPH, promotion_setPH, pawn_special_setPH, castling_setPH, hP]
  ext <;>
    simp [setPH, hp, ht, hc, Nat.xor_assoc, Nat.xor_comm, xor_left_comm, xor_cancel_left]

/-- C1: for every hash table, board and legal move, `unmake_legal_move` applied
to the board produced by `make_legal_move` (with the transient block the make
returned) restores the original board exactly — planes, hash, clock, rights,
en passant, turn and player. -/
theorem make_unmake_restores (zt : ZobristTables) (b : CompactBitBoard) (mv : LegalMove) :
    unmake_legal_move zt (make_legal_move zt b mv).1 mv (make_legal_move zt b mv).2 = b := by
  unfold make_legal_move unmake_legal_move
  simp only [st_np_pp, cbb_trans]
  exact unmake_assemble zt mv.mv b _
    (by rw [castling_player, pawn_special_player, promotion_player, simple_player])
    (by rw [castling_turn, pawn_special_turn, promotion_turn, simple_turn])
    (by rw [castling_castling, pawn_special_castling, promotion_castling, simple_castling])
    rfl


/-! ## Projection lemmas for the en-passant field (claim C10) -/

@[simp] lemma setc_trans (b : CompactBitBoard) (v) :
    (BitBoard.set_halfmove_clock b v).meta.trans =
      { b.meta.trans with halfmove_clock := v } := rfl
@[simp] lemma setr_trans (b : CompactBitBoard) (r) :
    (BitBoard.set_castling_rights b r).meta.trans =
      { b.meta.trans with rights := r } := rfl
@[simp] lemma setep_trans (b : CompactBitBoard) (e) :
    (BitBoard.set_en_passant b e).meta.trans =
      { b.meta.trans with en_passant := e } := rfl

lemma rrd_ep (zt color sq dir) (b : CompactBitBoard) :
    (rook_rights_dir zt color sq dir b).meta.trans.en_passant = b.meta.trans.en_passant := by
  unfold rook_rights_dir; split <;> rfl

lemma rrl_ep (zt piece color sq) (b : CompactBitBoard) :
    (rook_rights_loss zt piece color sq b).meta.trans.en_passant = b.meta.trans.en_passant := by
  unfold rook_rights_loss; split
  · rfl
  · simp [rrd_ep]

lemma capturing_ep (zt mv sq) (b : CompactBitBoard) :
    (capturing_move zt mv sq b).meta.trans.en_passant = b.meta.trans.en_passant := by
  unfold capturing_move
  cases mv.capture
  · rfl
  · simp [rrl_ep]

lemma simple_ep (zt mv) (b : CompactBitBoard) :
    (simple_move zt mv b).meta.trans.en_passant = b.meta.trans.en_passant := by
  unfold simple_move
  split
  · rfl
  · simp [capturing_ep, rrl_ep]

lemma promotion_ep (zt mv) (b : CompactBitBoard) :
    (promotion_move zt mv b).meta.trans.en_passant = b.meta.trans.en_passant := by
  unfold promotion_move
  cases PawnPromotion.from_special mv.special
  · rfl
  · simp [capturing_ep]

lemma castling_ep (zt mv) (b : CompactBitBoard) :
    (castling_move zt mv b).meta.trans.en_passant = b.meta.trans.en_passant := by
  unfold castling_move
  cases CastlingDirection.from_special mv.special <;> rfl

lemma pawn_special_ep (zt mv) (b : CompactBitBoard) :
    (pawn_special zt mv b).meta.trans.en_passant =
      if (pawnFromSpecial mv.special).isSome ∧ abs_diff mv.from_.val mv.to_.val = 16 then
        some { square := Square.from_u8 (min mv.from_.val mv.to_.val + 8), capture := mv.to_ }
      else none := by
  unfold pawn_special
  cases hps : pawnFromSpecial mv.special with
  | none =>
    simp only [hps, Option.isSome_none, Bool.false_eq_true, false_and, if_neg, ite_false,
      not_false_iff]
    split_ifs <;> rfl
  | some u =>
    simp only [hps, Option.isSome_some, true_and]
    by_cases hd : abs_diff mv.from_.val mv.to_.val = 16
    · simp only [if_pos hd]
      cases b.meta.trans.en_passant <;> split_ifs <;> simp [capturing_ep]
    · simp only [if_neg hd]
      cases b.meta.trans.en_passant <;> split_ifs <;> simp [capturing_ep]

/-- C10 (amended): after `make_legal_move`, the en-passant transient is `Some`
exactly when the move made was a two-square pawn push (pawn special with
`|from - to| = 16`), regardless of whether an enemy pawn stands adjacent;
its target square is the square passed over and its captured-pawn square is
the push destination.  Every other move leaves it `None`. -/
theorem make_en_passant_iff_double_push (zt : ZobristTables) (b : CompactBitBoard)
    (mv : ChessMove) :
    ((make_legal_move zt b (LegalMove.mk mv)).1).meta.trans.en_passant =
      (if mv.special = some SpecialMove.PAWN ∧ abs_diff mv.from_.val mv.to_.val = 16 then
        some { square := Square.from_u8 (min mv.from_.val mv.to_.val + 8), capture := mv.to_ }
      else none) := by
  unfold make_legal_move
  show (BitBoard.next_ply (castling_move zt mv (pawn_special zt mv (promotion_move zt mv
      (simple_move zt mv b))))).meta.trans.en_passant = _
  have hnp : ∀ x : CompactBitBoard,
      (BitBoard.next_ply x).meta.trans.en_passant = x.meta.trans.en_passant := fun _ => rfl
  rw [hnp, castling_ep, pawn_special_ep]
  have hiff : (pawnFromSpecial mv.special).isSome = true ↔ mv.special = some SpecialMove.PAWN := by
    cases hsp : mv.special with
    | none => simp [pawnFromSpecial]
    | some s => cases s <;> simp [pawnFromSpecial]
  by_cases hc : mv.special = some SpecialMove.PAWN ∧ abs_diff mv.from_.val mv.to_.val = 16
  · rw [if_pos ⟨hiff.2 hc.1, hc.2⟩, if_pos hc]
  · rw [if_neg (fun hx => hc ⟨hiff.1 hx.1, hx.2⟩), if_neg hc]


/-! ## Concrete inputs for the remaining claims -/

/-- The move `e2-e4` (a white double pawn push). -/
def mvE2E4 : ChessMove :=
  { ech := .PAWN, from_ := ⟨12, by decide⟩, to_ := ⟨28, by decide⟩
    special := some .PAWN, capture := none }

/-- The move `d7-d5` (a black double pawn push). -/
def mvD7D5 : ChessMove :=
  { ech := .PAWN, from_ := ⟨51, by decide⟩, to_ := ⟨35, by decide⟩
    special := some .PAWN, capture := none }

/-- The white east (kingside) castle `e1-g1`. -/
def mvCastleEast : ChessMove :=
  { ech := .KING, from_ := ⟨4, by decide⟩, to_ := ⟨6, by decide⟩
    special := some .EAST, capture := none }

/-- C10 (counterexample): from the start position, `e2-e4` has no black pawn
on an adjacent square (`d4` or `f4`) capable of capturing on `e3`, yet the
resulting board's en-passant transient is `Some` — refuting the claim that it
is set only when such a pawn exists. -/
theorem en_passant_set_without_adjacent_pawn :
    ((make_legal_move NoHashes (CompactBitBoard.startpos NoHashes)
        (LegalMove.mk mvE2E4)).1).meta.trans.en_passant =
      some { square := ⟨20, by decide⟩, capture := ⟨28, by decide⟩ } ∧
    ((make_legal_move NoHashes (CompactBitBoard.startpos NoHashes)
        (LegalMove.mk mvE2E4)).1).men .BLACK .PAWN &&&
      ((1 <<< 27) ||| (1 <<< 29)) = 0 := by
  constructor
  · decide
  · decide

/-- C5: a castling move passes through both the clock increment of
`simple_move` (which runs before the early return) and the increment of
`castling_move`, so the half-move clock grows by exactly 2, not 1, on every
board and with every hash table. -/
theorem castle_increments_clock_twice (zt : ZobristTables) (b : CompactBitBoard) :
    ((make_legal_move zt b (LegalMove.mk mvCastleEast)).1).meta.trans.halfmove_clock =
      b.meta.trans.halfmove_clock + 2 := rfl

/-- C7: `DefaultZobristDetails::hash_rights` ignores its argument — it XORs
all four table entries whatever the rights are, so no two rights
configurations ever hash differently. -/
theorem hash_rights_ignores_rights (d : DefaultZobristDetails) (r rx : Rights) :
    d.hash_rights r = d.hash_rights rx := rfl

/-- C8: `CompactBitBoard::sanity_check` asserts
`colors[WHITE] | colors[BLACK] == 0` (a disjunction instead of the
conjunction its message "white and black overlap" describes), so it fails on
the standard start position for every hash table. -/
theorem sanity_check_fails_on_startpos (zt : ZobristTables) :
    (CompactBitBoard.startpos zt).sanity_check zt = false := by
  have hW : (CompactBitBoard.startpos zt).colors .WHITE = 65535 := rfl
  have hB : (CompactBitBoard.startpos zt).colors .BLACK = 18446462598732840960 := rfl
  have hfalse : ((65535 : Nat) ||| 18446462598732840960 == 0) = false := by decide
  unfold CompactBitBoard.sanity_check
  rw [hW, hB, hfalse]
  simp

/-- C9: the cached per-color totals written by `FullerBitBoard::startpos`
(`0xFF00` and `0x00FF000000000000`) cover only the pawn ranks, so the cached
occupancy differs from the union of the color's six piece planes already at
construction, for both colors and every hash table. -/
theorem fuller_startpos_totals_mismatch (zt : ZobristTables) :
    (FullerBitBoard.startpos zt).color .WHITE ≠
        bitor_sum_ech ((FullerBitBoard.startpos zt).bitboard.masks .WHITE) ∧
      (FullerBitBoard.startpos zt).color .BLACK ≠
        bitor_sum_ech ((FullerBitBoard.startpos zt).bitboard.masks .BLACK) := by
  have hM : (FullerBitBoard.startpos zt).bitboard.masks =
      (FullerBitBoard.startpos NoHashes).bitboard.masks := rfl
  have hC : (FullerBitBoard.startpos zt).color =
      (FullerBitBoard.startpos NoHashes).color := rfl
  rw [hM, hC]
  constructor
  · decide
  · decide


/-! ## Claim C2: the legality filter -/

/-- A three-man position: white king e1 (to move), black rook e8, black
king h8.  Moving the king to e2 walks into the rook's file. -/
def boardKingVsRook : CompactBitBoard :=
  { ech := fun
      | .KING => (1 <<< 4) ||| (1 <<< 63)
      | .ROOK => 1 <<< 60
      | _ => 0
    colors := fun
      | .WHITE => 1 <<< 4
      | .BLACK => (1 <<< 60) ||| (1 <<< 63)
    meta :=
      { castling := CLASSIC_CASTLING
        hash := 0
        turn := 1
        player := .WHITE
        trans := { en_passant := none, halfmove_clock := 0, rights := fun _ _ => false } } }

/-- The move `Ke1-e2` on `boardKingVsRook`. -/
def mvKE1E2 : ChessMove :=
  { ech := .KING, from_ := ⟨4, by decide⟩, to_ := ⟨12, by decide⟩
    special := none, capture := none }

/-- C2: `LegalMoveBlesser::bless` accepts `Ke1-e2` although after the move the
white king stands on the black rook's file and is attacked: the attack masks
computed by `FakeMoveSimpleStrategyGenerator::attacks` target the wrong king
(and the `BLACK` arm reads `side(WHITE)`), so the filter is not the
"own king not attacked after the move" test the claim states. -/
theorem bless_accepts_move_into_check :
    (LegalMoveBlesser.new boardKingVsRook).bless boardKingVsRook mvKE1E2 =
        some (LegalMove.mk mvKE1E2) ∧
      attacks_from_echarray_black
          ⟨(clone_make_pseudolegal_move boardKingVsRook (PseudoLegal.mk mvKE1E2)).total⟩
          ((clone_make_pseudolegal_move boardKingVsRook (PseudoLegal.mk mvKE1E2)).side .BLACK)
        &&& (clone_make_pseudolegal_move boardKingVsRook
            (PseudoLegal.mk mvKE1E2)).men .WHITE .KING ≠ 0 := by
  constructor
  · decide
  · decide

/-! ## Claim C3: hash invariant, Full board with Compact tables -/

/-- A concrete `CompactZobristTables` instance with pairwise distinct pawn
values (standing in for the PRNG-filled program tables). -/
def zcTest : CompactZobristTables :=
  { men := fun e sq => (e.ix + 1) * 64 + sq.val
    colors := fun c sq => (match c with | .WHITE => 1000 | .BLACK => 2000) + sq.val
    details := { ep_files := fun _ => 0, rights := fun _ _ => 0, black_to_move := 0 } }

/-- C3: on the `FullBitBoard` layout hashed with `CompactZobristTables`, the
incremental hash and `rehash` agree after white's `e2-e4` but disagree after
black's `d7-d5`: `hash_full_bitboard` reads
`masks[WHITE][man] | masks[WHITE][man]` and never the black masks. -/
theorem full_layout_compact_tables_hash_mismatch :
    ((make_legal_move zcTest.tables (FullBitBoard.startpos zcTest.tables)
          (LegalMove.mk mvE2E4)).1).meta.hash =
        ((make_legal_move zcTest.tables (FullBitBoard.startpos zcTest.tables)
          (LegalMove.mk mvE2E4)).1).rehash zcTest.tables ∧
      ((make_legal_move zcTest.tables ((make_legal_move zcTest.tables
            (FullBitBoard.startpos zcTest.tables) (LegalMove.mk mvE2E4)).1)
          (LegalMove.mk mvD7D5)).1).meta.hash ≠
        ((make_legal_move zcTest.tables ((make_legal_move zcTest.tables
            (FullBitBoard.startpos zcTest.tables) (LegalMove.mk mvE2E4)).1)
          (LegalMove.mk mvD7D5)).1).rehash zcTest.tables := by
  constructor
  · decide
  · decide

/-! ## Claim C4: promotion fan-out -/

/-- A black pawn on a2, black to move, otherwise empty board. -/
def boardBlackPawnA2 : CompactBitBoard :=
  { ech := fun | .PAWN => 1 <<< 8 | _ => 0
    colors := fun | .WHITE => 0 | .BLACK => 1 <<< 8
    meta :=
      { castling := CLASSIC_CASTLING
        hash := 0
        turn := 1
        player := .BLACK
        trans := { en_passant := none, halfmove_clock := 0, rights := fun _ _ => false } } }

/-- A white pawn on a7, white to move, otherwise empty board. -/
def boardWhitePawnA7 : CompactBitBoard :=
  { ech := fun | .PAWN => 1 <<< 48 | _ => 0
    colors := fun | .WHITE => 1 <<< 48 | .BLACK => 0
    meta :=
      { castling := CLASSIC_CASTLING
        hash := 0
        turn := 1
        player := .WHITE
        trans := { en_passant := none, halfmove_clock := 0, rights := fun _ _ => false } } }

/-- C4: `promotions` tests `mv.to < a1 || h7 < mv.to`, and `to < a1` never
holds, so a white pawn reaching rank 8 fans out into the four promotions while
a black pawn reaching rank 1 is emitted exactly once with no promotion
special. -/
theorem promotion_fanout_white_only :
    pawn_moves boardWhitePawnA7 (fun mv => some (PseudoLegal.mk mv))
        (boardWhitePawnA7.men .WHITE .PAWN)
        (MostlyBits.white_pawn ⟨boardWhitePawnA7.total⟩) [] =
      [PseudoLegal.mk (ChessMove.mk .PAWN ⟨48, by decide⟩ ⟨56, by decide⟩ (some .KNIGHT) none),
        PseudoLegal.mk (ChessMove.mk .PAWN ⟨48, by decide⟩ ⟨56, by decide⟩ (some .BISHOP) none),
        PseudoLegal.mk (ChessMove.mk .PAWN ⟨48, by decide⟩ ⟨56, by decide⟩ (some .ROOK) none),
        PseudoLegal.mk (ChessMove.mk .PAWN ⟨48, by decide⟩ ⟨56, by decide⟩ (some .QUEEN) none)] ∧
    pawn_moves boardBlackPawnA2 (fun mv => some (PseudoLegal.mk mv))
        (boardBlackPawnA2.men .BLACK .PAWN)
        (MostlyBits.black_pawn ⟨boardBlackPawnA2.total⟩) [] =
      [PseudoLegal.mk (ChessMove.mk .PAWN ⟨8, by decide⟩ ⟨0, by decide⟩ none none)] := by
  constructor
  · decide
  · decide


/-! ## Claim C6: hash delta of e2-e4 from the start position -/

/-- XORing a non-zero value changes a number. -/
lemma ne_xor_of_ne_zero (a b : Nat) (h : b ≠ 0) : a ≠ a ^^^ b := by
  intro he
  apply h
  have h2 := xor_cancel_left a b
  rw [← he, Nat.xor_self] at h2
  exact h2.symm

/-- A `FullZobristTables` instance with `black_to_move = 1`, for the
witness of the C6 theorem. -/
def ztBlackOne : FullZobristTables :=
  { masks := fun _ _ _ => 0
    details := { ep_files := fun _ => 0, rights := fun _ _ => 0, black_to_move := 1 } }

/-- C6: after `e2-e4` from the start position the en-passant transient is
target e3 / capture e4 as claimed, and the hash moves by
`hash_square(W,PAWN,e2) ^^^ hash_square(W,PAWN,e4) ^^^ ep_files[e]` — without
the `black_to_move` term the claim includes: `DefaultMetaBoard::next_ply`
never applies that delta, so whenever `black_to_move ≠ 0` the claimed hash
value is wrong. -/
theorem e2e4_en_passant_and_hash (zt : FullZobristTables) :
    ((make_legal_move zt.tables (FullBitBoard.startpos zt.tables)
          (LegalMove.mk mvE2E4)).1).meta.trans.en_passant =
        some { square := ⟨20, by decide⟩, capture := ⟨28, by decide⟩ } ∧
      ((make_legal_move zt.tables (FullBitBoard.startpos zt.tables)
          (LegalMove.mk mvE2E4)).1).meta.hash =
        (FullBitBoard.startpos zt.tables).meta.hash ^^^
          zt.masks .WHITE .PAWN ⟨12, by decide⟩ ^^^
          zt.masks .WHITE .PAWN ⟨28, by decide⟩ ^^^
          zt.details.ep_files ⟨4, by decide⟩ ∧
      (zt.details.black_to_move ≠ 0 →
        ((make_legal_move zt.tables (FullBitBoard.startpos zt.tables)
            (LegalMove.mk mvE2E4)).1).meta.hash ≠
          (FullBitBoard.startpos zt.tables).meta.hash ^^^
            zt.masks .WHITE .PAWN ⟨12, by decide⟩ ^^^
            zt.masks .WHITE .PAWN ⟨28, by decide⟩ ^^^
            zt.details.ep_files ⟨4, by decide⟩ ^^^
            zt.details.black_to_move) := by
  have h1 : ((make_legal_move zt.tables (FullBitBoard.startpos zt.tables)
        (LegalMove.mk mvE2E4)).1).meta.hash =
      (FullBitBoard.startpos zt.tables).meta.hash ^^^ 0 ^^^
        ((0 ^^^ zt.masks .WHITE .PAWN ⟨12, by decide⟩) ^^^
          zt.masks .WHITE .PAWN ⟨28, by decide⟩) ^^^
        zt.details.ep_files ⟨4, by decide⟩ := rfl
  have h2 : ((make_legal_move zt.tables (FullBitBoard.startpos zt.tables)
        (LegalMove.mk mvE2E4)).1).meta.hash =
      (FullBitBoard.startpos zt.tables).meta.hash ^^^
        zt.masks .WHITE .PAWN ⟨12, by decide⟩ ^^^
        zt.masks .WHITE .PAWN ⟨28, by decide⟩ ^^^
        zt.details.ep_files ⟨4, by decide⟩ := by
    rw [h1]
    simp [Nat.xor_assoc]
  refine ⟨rfl, h2, ?_⟩
  intro hbtm
  rw [h2]
  exact ne_xor_of_ne_zero _ _ hbtm

/-- Witness for the C6 theorem at a table whose `black_to_move` is 1. -/
theorem e2e4_en_passant_and_hash_witness :
    ztBlackOne.details.black_to_move ≠ 0 ∧
      ((make_legal_move ztBlackOne.tables (FullBitBoard.startpos ztBlackOne.tables)
          (LegalMove.mk mvE2E4)).1).meta.hash ≠
        (FullBitBoard.startpos ztBlackOne.tables).meta.hash ^^^
          ztBlackOne.masks .WHITE .PAWN ⟨12, by decide⟩ ^^^
          ztBlackOne.masks .WHITE .PAWN ⟨28, by decide⟩ ^^^
          ztBlackOne.details.ep_files ⟨4, by decide⟩ ^^^
          ztBlackOne.details.black_to_move :=
  ⟨by decide, (e2e4_en_passant_and_hash ztBlackOne).2.2 (by decide)⟩

end Catchesstrophy
